import Mathlib

/-!
Verification development for the LPN solver repository (`src/bkw.rs` and the
Guava code tables under `src/codes/guava/`).

The Rust sources are shallowly embedded below.  Bit-packed GF(2) vectors are
modelled as `Nat` bitmasks (bit `j` of the number is column/position `j`, the
convention established by `BinMatrix::from_slices` and checked by the
`test_generator_representation` test in `guava_7_2.rs`).  Sample pools are
`List Sample`.  The noise parameter is modelled as a rational number.

The oracle type and the `Sample` accessors live in `oracle.rs`, which is not
part of the sources provided; those definitions are modelled from the
specification and are marked `Modelled from the spec:` in their doc comments.
Everything in `bkw.rs` and the code tables is translated directly from the
source.
-/

namespace LpnSpec

/-- Modelled from the spec: a `Sample` (oracle.rs, spec section 3) packs the
GF(2) vector `a` together with a product bit `p`.  The vector `a` is encoded
as a `Nat` bitmask. -/
structure Sample where
  a : Nat
  p : Bool
deriving DecidableEq, Repr

/-- Modelled from the spec: `Sample::xor_into` (oracle.rs, spec section 3)
XORs both the `a` vector and the product bit of the other sample into this
sample. -/
def Sample.xor_into (q other : Sample) : Sample :=
  ⟨q.a ^^^ other.a, xor q.p other.p⟩

/-- Fuel-based popcount helper; the fuel always exceeds the number of binary
digits, so `countOnesAux n n` is the number of set bits of `n`. -/
def countOnesAux : Nat → Nat → Nat
  | 0, _ => 0
  | _ + 1, 0 => 0
  | fuel + 1, n + 1 => (n + 1) % 2 + countOnesAux fuel ((n + 1) / 2)

/-- Modelled from the spec: `Sample::count_ones` (oracle.rs, spec section 3)
is the Hamming weight of the `a` vector. -/
def Sample.count_ones (q : Sample) : Nat := countOnesAux q.a q.a

/-- Modelled from the spec: `Sample::get_block i` (oracle.rs, spec section 3)
is word-level access to the `i`-th 64-bit storage word of `a`. -/
def Sample.get_block (q : Sample) (i : Nat) : Nat := (q.a >>> (64 * i)) % 2 ^ 64

/-- Modelled from the spec: `Sample::get_product` (oracle.rs, spec section 3)
returns the product bit `p`. -/
def Sample.get_product (q : Sample) : Bool := q.p

/-- Modelled from the spec: `query_bits_range` (oracle.rs) extracts the bits
of `a` in the half-open range `[lo, hi)` as a machine word. -/
def query_bits_range (q : Sample) (lo hi : Nat) : Nat :=
  (q.a >>> lo) % 2 ^ (hi - lo)

/-- Modelled from the spec: the oracle state (oracle.rs, spec section 3)
tracked by the reducers: the current dimension `k`, the noise parameter `τ`
and the sample pool.  The true secret is irrelevant to the claims and is
omitted. -/
structure LpnOracle where
  k : Nat
  tau : ℚ
  samples : List Sample

/-- Modelled from the spec: `LpnOracle::truncate k'` (oracle.rs, spec section
4.1) sets `k ← k'` and zeroes every sample bit at position `≥ k'`.  The spec
describes no `τ` update as part of truncation; the two `τ` bookkeeping
mutators are separate operations that a reducer must invoke explicitly. -/
def LpnOracle.truncate (oracle : LpnOracle) (kNew : Nat) : LpnOracle :=
  ⟨kNew, oracle.tau, oracle.samples.map fun q => ⟨q.a % 2 ^ kNew, q.p⟩⟩

/-- Modelled from the spec: the sum-of-`m`-samples noise update
`τ ← (1 − (1 − 2 τ)^m) / 2` (spec sections 4.1 and 9). -/
def sumSamplesTau (tau : ℚ) (m : Nat) : ℚ := (1 - (1 - 2 * tau) ^ m) / 2

/-- Generic insertion used to model the sample sort of the sorting BKW
variant.  The source sorts with an unstable parallel sort, so only the
by-key order (not the relative order of equal keys) is specified; insertion
sort realises one such order. -/
def insertLe (le : α → α → Bool) (x : α) : List α → List α
  | [] => [x]
  | y :: rest => if le x y then x :: y :: rest else y :: insertLe le x rest

/-- Insertion sort by a boolean comparison, modelling `par_sort_unstable_by_key`. -/
def insertionSort (le : α → α → Bool) : List α → List α
  | [] => []
  | x :: rest => insertLe le x (insertionSort le rest)

/-- Vec::swap_remove: replace the element at `i` with the last element and
pop the last element. -/
def swapRemove (l : List Sample) (i : Nat) : List Sample :=
  (l.set i (l.getLastD ⟨0, false⟩)).dropLast

/-- First sequential pass of `bkw_reduce_inplace` (bkw.rs lines 44-54): scan
the samples after the first one; the first sample seen for a bucket is
recorded (by its pool index, starting from 1) as that bucket's pivot; when a
sample hits a bucket that already has a pivot and some bucket is still
without a pivot, the scan stops.  The counter `j` carries the pool index of
the head of the remaining scan list. -/
def collectFirsts (lo hi : Nat) : List Sample → Nat → List (Option Nat) → List (Option Nat)
  | [], _, firsts => firsts
  | q :: rest, j, firsts =>
    let idx := query_bits_range q lo hi
    match firsts.getD idx none with
    | some _ =>
      if firsts.any fun item => item.isNone then firsts
      else collectFirsts lo hi rest (j + 1) firsts
    | none => collectFirsts lo hi rest (j + 1) (firsts.set idx (some j))

/-- The recorded pivot indices, in the order the removal loop of
`bkw_reduce_inplace` visits them: `firsts_idxs.sort_unstable()` followed by
`.rev()` and dropping the `None`s, i.e. the recorded indices in descending
order. -/
def descendingIdxs (firsts : List (Option Nat)) : List Nat :=
  insertionSort (fun x y => y ≤ x) (firsts.filterMap id)

/-- Pivot removal loop of `bkw_reduce_inplace` (bkw.rs lines 57-66): for each
recorded index (descending) the sample at that index is swap-removed from the
pool and stored into the `firsts` array at position equal to the sample's
pool index (this mirrors the source, which indexes `firsts` by the pivot's
pool index, not by its bucket value). -/
def removeAndStore : List Nat → List Sample → List (Option Sample) → List Sample × List (Option Sample)
  | [], samples, firsts => (samples, firsts)
  | i :: rest, samples, firsts =>
    removeAndStore rest (swapRemove samples i) (firsts.set i (some (samples.getD i ⟨0, false⟩)))

/-- Parallel XOR pass of `bkw_reduce_inplace` (bkw.rs lines 68-73): every
remaining sample is XORed with `firsts[idx]` when present, where `idx` is the
sample's bucket value. -/
def xorPass (firsts : List (Option Sample)) (lo hi : Nat) (samples : List Sample) : List Sample :=
  samples.map fun q =>
    match firsts.getD (query_bits_range q lo hi) none with
    | some item => q.xor_into item
    | none => q

/-- The indexing BKW reduction iteration `bkw_reduce_inplace` (bkw.rs lines
29-74).  The scan skips the sample at index 0 (the source iterates over
`samples[1..]` so that pivot indices fit in `NonZeroUsize`; on an empty pool
the source slice expression panics, modelled here as the empty scan). -/
def bkw_reduce_inplace (oracle : LpnOracle) (i b : Nat) : LpnOracle :=
  let k := oracle.k
  let maxj := 2 ^ b
  let lo := k - b * i
  let hi := k - b * (i - 1)
  let firstsIdxs := collectFirsts lo hi (oracle.samples.drop 1) 1 (List.replicate maxj none)
  let idxs := descendingIdxs firstsIdxs
  let pair := removeAndStore idxs oracle.samples (List.replicate maxj none)
  ⟨oracle.k, oracle.tau, xorPass pair.2 lo hi pair.1⟩

/-- Split a (key-sorted) pool into maximal runs of equal key on the bit range
`[lo, hi)`, modelling the partition loop of `bkw_reduce_sorted` (bkw.rs lines
93-103).  Structural recursion on a fuel that is initialised to the pool
length. -/
def splitRunsAux (lo hi : Nat) : Nat → List Sample → List (List Sample)
  | 0, _ => []
  | _ + 1, [] => []
  | fuel + 1, q :: rest =>
    ((q :: rest).takeWhile fun r => query_bits_range q lo hi == query_bits_range r lo hi) ::
      splitRunsAux lo hi fuel
        ((q :: rest).dropWhile fun r => query_bits_range q lo hi == query_bits_range r lo hi)

/-- Partition a sorted pool into its runs of equal bucket key. -/
def splitRuns (lo hi : Nat) (l : List Sample) : List (List Sample) :=
  splitRunsAux lo hi l.length l

/-- Start offsets of the runs inside the concatenated pool (bkw.rs lines
113-115 compute them by pointer arithmetic). -/
def runStarts : List (List Sample) → Nat → List Nat
  | [], _ => []
  | part :: rest, acc => acc :: runStarts rest (acc + part.length)

/-- XOR the head of a run into all later members of the run (bkw.rs lines
106-109); the head itself is kept in place for now (it is removed by the
swap-remove loop afterwards). -/
def xorRun : List Sample → List Sample
  | [] => []
  | first :: rest => first :: rest.map fun q => q.xor_into first

/-- The partition-process-remove phase of `bkw_reduce_sorted` on an already
sorted pool: split into runs of equal key, XOR each run head into the rest
of its run, then swap-remove the run heads in descending start order
(bkw.rs lines 93-120). -/
def sortedResidual (lo hi : Nat) (pool : List Sample) : List Sample :=
  ((runStarts (splitRuns lo hi pool) 0).reverse).foldl swapRemove
    (((splitRuns lo hi pool).map xorRun).flatten)

/-- The sorting BKW reduction iteration `bkw_reduce_sorted` (bkw.rs lines
76-121): sort by the bits in `[k − i·b, k)`, split into runs, XOR each run
head into the rest of its run, then swap-remove the run heads in descending
start order. -/
def bkw_reduce_sorted (oracle : LpnOracle) (i b : Nat) : LpnOracle :=
  ⟨oracle.k, oracle.tau,
    sortedResidual (oracle.k - i * b) oracle.k
      (insertionSort (fun q r => query_bits_range q (oracle.k - i * b) oracle.k
        ≤ query_bits_range r (oracle.k - i * b) oracle.k) oracle.samples)⟩

/-- One iteration of the loop in `bkw_reduce` (bkw.rs lines 130-138): the
indexing variant is used for `b < 22`, the sorting variant otherwise. -/
def bkwStep (b : Nat) (oracle : LpnOracle) (i : Nat) : LpnOracle :=
  if b < 22 then bkw_reduce_inplace oracle i b else bkw_reduce_sorted oracle i b

/-- The iterations `i = 1 … n` of `bkw_reduce`. -/
def bkwIterations (oracle : LpnOracle) (b n : Nat) : LpnOracle :=
  (List.range' 1 n).foldl (bkwStep b) oracle

/-- `bkw_reduce` (bkw.rs lines 124-147): assert `a·b ≤ k`, run iterations
`i = 1 … a−1`, then truncate the oracle to `k − (a−1)·b`.  The source
performs no other oracle mutation: in particular it never touches `τ`. -/
def bkw_reduce (oracle : LpnOracle) (a b : Nat) : LpnOracle :=
  LpnOracle.truncate (bkwIterations oracle b (a - 1)) (oracle.k - (a - 1) * b)

/-- One `FnvHashMap::entry(key).or_insert((0,0))` update of the majority
tally (bkw.rs lines 172-179): bump the count for `key`, and the sum when the
product bit is set.  The map is modelled as an association list. -/
def bump : List (Nat × Nat × Nat) → Nat → Bool → List (Nat × Nat × Nat)
  | [], key, p => [(key, 1, if p then 1 else 0)]
  | (k0, c, s) :: rest, key, p =>
    if k0 = key then (k0, c + 1, if p then s + 1 else s) :: rest
    else (k0, c, s) :: bump rest key p

/-- The `count_sum` map of `majority`, built by folding over the kept
samples, keyed by `get_block 0`. -/
def tally (l : List Sample) : List (Nat × Nat × Nat) :=
  l.foldl (fun m q => bump m (q.get_block 0) q.p) []

/-- Lookup in the tally association list. -/
def lookupTally (m : List (Nat × Nat × Nat)) (key : Nat) : Option (Nat × Nat) :=
  match m with
  | [] => none
  | (k0, c, s) :: rest => if k0 = key then some (c, s) else lookupTally rest key

/-- One step of the output loop of `majority` (bkw.rs lines 183-187): look
the bucket of `e_i` up and emit `count < 2·sum`; a missing bucket is the
`expect` panic, modelled as `none`. -/
def bitAt (m : List (Nat × Nat × Nat)) (i : Nat) : Option Bool :=
  match lookupTally m (2 ^ i) with
  | some cs => some (decide (cs.1 < 2 * cs.2))
  | none => none

/-- The majority solver `majority` (bkw.rs lines 150-189): keep the samples
of Hamming weight 1, tally them by their first storage block, and emit one
majority bit per position `i < k`; a missing bucket aborts the solver. -/
def majority (oracle : LpnOracle) : Option (List Bool) :=
  let kept := oracle.samples.filter fun q => q.count_ones == 1
  let m := tally kept
  (List.range oracle.k).mapM (bitAt m)

/-- The samples the majority solver keeps: exactly those of Hamming weight 1
(spec section 4.6). -/
def keptSamples (oracle : LpnOracle) : List Sample :=
  oracle.samples.filter fun q => q.count_ones == 1

/-- Number of kept samples whose `a` vector is the unit vector `e_i`
(the claim's `count_i`). -/
def bucketCount (oracle : LpnOracle) (i : Nat) : Nat :=
  ((keptSamples oracle).filter fun q => q.a == 2 ^ i).length

/-- Number of kept samples with `a = e_i` whose product bit is set
(the claim's `sum_i`). -/
def bucketOnes (oracle : LpnOracle) (i : Nat) : Nat :=
  ((keptSamples oracle).filter fun q => q.a == 2 ^ i && q.p).length

/-- Parity of the AND of two bitmasks: the GF(2) inner product of the two
vectors they encode. -/
def dotBits (x y : Nat) : Bool := countOnesAux (x &&& y) (x &&& y) % 2 == 1

/-- Encoding by a generator matrix given as a list of row bitmasks: the XOR
of the rows selected by the message bits.  Modelled from the spec: the
`BinaryCode::encode` default (codes/mod.rs, spec section 6) multiplies the
message row vector by the generator matrix. -/
def encodeRowsAux (m : Nat) : List Nat → Nat → Nat
  | [], _ => 0
  | r :: rest, j => (if m.testBit j then r else 0) ^^^ encodeRowsAux m rest (j + 1)

/-- Encode message `m` with the given generator rows. -/
def encodeRows (rows : List Nat) (m : Nat) : Nat := encodeRowsAux m rows 0

/-- The syndrome `H·c` packed little-endian into a machine word, modelling
`c * self.parity_check_matrix_transposed()` followed by `as_u64` in
`decode_to_code`: bit `r` of the result is the inner product of `c` with the
`r`-th parity-check row. -/
def syndromeRows (rows : List Nat) (c : Nat) : Nat :=
  match rows with
  | [] => 0
  | r :: rest => (if dotBits c r then 1 else 0) + 2 * syndromeRows rest c

/-- `decode_to_code` (guava_*.rs): compute the syndrome, look up the coset
leader in the syndrome map, and XOR it into the received word.  A missing
syndrome entry is the source's indexing panic, modelled as `none`. -/
def decodeToCode (rows : List Nat) (map : List (Nat × Nat)) (c : Nat) : Option Nat :=
  match List.lookup (syndromeRows rows c) map with
  | some e => some (c ^^^ e)
  | none => none

/-- `decode_to_message` (guava_*.rs): decode to the nearest codeword and keep
the first `dim` bits. -/
def decodeToMessage (rows : List Nat) (map : List (Nat × Nat)) (dim c : Nat) : Option Nat :=
  (decodeToCode rows map c).map fun w => w % 2 ^ dim

/-- Generator rows of `GuavaCode7_2` (guava_7_2.rs). -/
def generator7_2 : List Nat := [101, 122]

/-- Parity-check rows of `GuavaCode7_2` (guava_7_2.rs). -/
def parity7_2 : List Nat := [81, 18, 84, 24, 96]

/-- Syndrome map of `GuavaCode7_2` (guava_7_2.rs), in source insertion order. -/
def syndromeMap7_2 : List (Nat × Nat) :=
  [(0, 0), (1, 1), (2, 2), (4, 4), (8, 8), (15, 16), (16, 32), (21, 64),
   (3, 3), (5, 5), (9, 9), (14, 17), (17, 33), (20, 65), (6, 6), (10, 10),
   (13, 18), (18, 34), (23, 66), (12, 12), (11, 20), (7, 24), (24, 40),
   (29, 72), (31, 48), (26, 80), (19, 35), (22, 67), (25, 41), (28, 73),
   (30, 49), (27, 81)]

/-- Generator rows of `GuavaCode9_6` (guava_9_6.rs). -/
def generator9_6 : List Nat := [65, 66, 68, 72, 80, 96]

/-- Parity-check rows of `GuavaCode9_6` (guava_9_6.rs). -/
def parity9_6 : List Nat := [127, 128, 256]

/-- Syndrome map of `GuavaCode9_6` (guava_9_6.rs). -/
def syndromeMap9_6 : List (Nat × Nat) :=
  [(0, 0), (1, 1), (2, 128), (4, 256), (3, 129), (5, 257), (6, 384), (7, 385)]

/-- Generator rows of `GuavaCode10_5` (guava_10_5.rs). -/
def generator10_5 : List Nat := [801, 450, 708, 840, 912]

/-- Parity-check rows of `GuavaCode10_5` (guava_10_5.rs). -/
def parity10_5 : List Nat := [33, 482, 740, 840, 912]

/-- Syndrome map of `GuavaCode10_5` (guava_10_5.rs). -/
def syndromeMap10_5 : List (Nat × Nat) :=
  [(0, 0), (1, 1), (2, 2), (4, 4), (8, 8), (16, 16), (7, 32), (14, 64),
   (22, 128), (26, 256), (28, 512), (3, 3), (5, 5), (9, 9), (17, 17),
   (6, 33), (15, 65), (23, 129), (27, 257), (29, 513), (10, 10), (18, 18),
   (12, 66), (20, 130), (24, 258), (30, 514), (11, 11), (19, 19), (13, 67),
   (21, 131), (25, 259), (31, 515)]

/-- Generator rows of `GuavaCode11_7` (guava_11_7.rs). -/
def generator11_7 : List Nat := [641, 386, 1924, 904, 1424, 1696, 1856]

/-- Parity-check rows of `GuavaCode11_7` (guava_11_7.rs). -/
def parity11_7 : List Nat := [481, 722, 1140, 2040]

/-- Syndrome map of `GuavaCode11_7` (guava_11_7.rs). -/
def syndromeMap11_7 : List (Nat × Nat) :=
  [(0, 0), (1, 1), (2, 2), (4, 4), (8, 8), (14, 16), (13, 32), (15, 64),
   (11, 128), (9, 256), (10, 512), (12, 1024), (3, 3), (5, 5), (6, 6),
   (7, 72)]

end LpnSpec

namespace LpnSpec

/-! ## Helper lemmas -/

theorem bkw_reduce_inplace_k (oracle : LpnOracle) (i b : Nat) :
    (bkw_reduce_inplace oracle i b).k = oracle.k := rfl

theorem bkw_reduce_sorted_k (oracle : LpnOracle) (i b : Nat) :
    (bkw_reduce_sorted oracle i b).k = oracle.k := rfl

theorem bkwStep_k (b : Nat) (oracle : LpnOracle) (i : Nat) :
    (bkwStep b oracle i).k = oracle.k := by
  unfold bkwStep; split <;> rfl

theorem bkw_reduce_inplace_tau (oracle : LpnOracle) (i b : Nat) :
    (bkw_reduce_inplace oracle i b).tau = oracle.tau := rfl

theorem bkw_reduce_sorted_tau (oracle : LpnOracle) (i b : Nat) :
    (bkw_reduce_sorted oracle i b).tau = oracle.tau := rfl

theorem bkwStep_tau (b : Nat) (oracle : LpnOracle) (i : Nat) :
    (bkwStep b oracle i).tau = oracle.tau := by
  unfold bkwStep; split <;> rfl

theorem foldl_bkwStep_k (b : Nat) (l : List Nat) (oracle : LpnOracle) :
    (l.foldl (bkwStep b) oracle).k = oracle.k := by
  induction l generalizing oracle with
  | nil => rfl
  | cons i rest ih => simpa [List.foldl_cons, bkwStep_k] using ih (bkwStep b oracle i)

theorem foldl_bkwStep_tau (b : Nat) (l : List Nat) (oracle : LpnOracle) :
    (l.foldl (bkwStep b) oracle).tau = oracle.tau := by
  induction l generalizing oracle with
  | nil => rfl
  | cons i rest ih => simpa [List.foldl_cons, bkwStep_tau] using ih (bkwStep b oracle i)

theorem bkwIterations_k (oracle : LpnOracle) (b n : Nat) :
    (bkwIterations oracle b n).k = oracle.k := foldl_bkwStep_k b _ oracle

theorem bkwIterations_tau (oracle : LpnOracle) (b n : Nat) :
    (bkwIterations oracle b n).tau = oracle.tau := foldl_bkwStep_tau b _ oracle

theorem bkw_reduce_tau_eq (oracle : LpnOracle) (a b : Nat) :
    (bkw_reduce oracle a b).tau = oracle.tau := by
  unfold bkw_reduce LpnOracle.truncate
  exact bkwIterations_tau oracle b (a - 1)

end LpnSpec

namespace LpnSpec

theorem syndromeRows_lt (rows : List Nat) (c : Nat) :
    syndromeRows rows c < 2 ^ rows.length := by
  induction rows with
  | nil => simp [syndromeRows]
  | cons r rest ih =>
    have h2 : syndromeRows rest c < 2 ^ rest.length := ih
    unfold syndromeRows
    have : (if dotBits c r then 1 else 0) ≤ 1 := by split <;> simp
    simp only [List.length_cons, pow_succ]
    omega

theorem decodeToCode_isSome (rows : List Nat) (map : List (Nat × Nat)) (c : Nat)
    (h : ((List.range (2 ^ rows.length)).all fun s => (List.lookup s map).isSome) = true) :
    (decodeToCode rows map c).isSome := by
  have hs := syndromeRows_lt rows c
  have htotal := (List.all_eq_true.mp h) (syndromeRows rows c)
    (List.mem_range.mpr hs)
  unfold decodeToCode
  cases hl : List.lookup (syndromeRows rows c) map with
  | none => rw [hl] at htotal; simp at htotal
  | some e => simp

end LpnSpec

namespace LpnSpec

/-! ## Claim theorems -/

/-- C1.  The claimed BKW window invariant fails on the code: after one
iteration of `bkw_reduce_inplace` with `k = 4`, `b = 2`, `i = 1` (the run
that `bkw_reduce` with `a = 2`, `b = 2` performs on a dimension-4 oracle,
so `a·b ≤ k` holds) on the pool
`[(a=4), (a=8), (a=12), (a=8, p=1)]`, both residual samples still have
nonzero bits in the window `W₁ = [2, 4)`: the scan records the pivots of
buckets 2 and 3 and then stops, and the XOR pass pairs each sample with
`firsts` indexed by pivot pool position instead of bucket value, so sample
`(a=8, p=1)` of bucket 2 is XORed with the bucket-3 pivot `(a=12)` instead
of the bucket-2 pivot `(a=8)`. -/
theorem bkw_window_invariant_violated_c1 :
    (bkw_reduce_inplace ⟨4, 0, [⟨4, false⟩, ⟨8, false⟩, ⟨12, false⟩, ⟨8, true⟩]⟩ 1 2).samples
      = [⟨12, false⟩, ⟨4, true⟩] ∧
    query_bits_range ⟨12, false⟩ 2 4 = 3 ∧
    query_bits_range ⟨4, true⟩ 2 4 = 1 := by
  refine ⟨?_, by decide, by decide⟩
  decide

/-- C2.  The indexing and the sorting BKW variants do not produce the same
multiset of residual samples: on the one-sample pool `[(a=4)]` with `k = 4`,
`b = 2`, iteration 1, the indexing variant scans `samples[1..]` only, records
no pivot, removes nothing and leaves the sample untouched, while the sorting
variant makes the sample the pivot of its singleton run and removes it, so
the residual pools are not permutations of each other. -/
theorem bkw_variants_disagree_c2 :
    (bkw_reduce_inplace ⟨4, 0, [⟨4, false⟩]⟩ 1 2).samples = [⟨4, false⟩] ∧
    (bkw_reduce_sorted ⟨4, 0, [⟨4, false⟩]⟩ 1 2).samples = [] ∧
    ¬ List.Perm (bkw_reduce_inplace ⟨4, 0, [⟨4, false⟩]⟩ 1 2).samples
        (bkw_reduce_sorted ⟨4, 0, [⟨4, false⟩]⟩ 1 2).samples := by
  refine ⟨by decide, by decide, fun h => ?_⟩
  have hlen := h.length_eq
  revert hlen
  decide

/-- C4.  `bkw_reduce` never updates `τ`: the embedding of the source (whose
only oracle mutations are the iteration bodies and the final `truncate`)
preserves `τ` identically, whereas the claimed sum-of-`2^(a−1)`-samples law
maps `τ = 1/4` at `a = 2` to `3/8 ≠ 1/4`. -/
theorem bkw_reduce_tau_never_updated_c4 :
    (∀ (oracle : LpnOracle) (a b : Nat), (bkw_reduce oracle a b).tau = oracle.tau) ∧
    (bkw_reduce ⟨2, 1/4, [⟨0, false⟩]⟩ 2 1).tau = 1/4 ∧
    sumSamplesTau (1/4) (2 ^ (2 - 1)) = 3/8 ∧
    (1/4 : ℚ) ≠ 3/8 := by
  refine ⟨bkw_reduce_tau_eq, bkw_reduce_tau_eq _ 2 1, ?_, by norm_num⟩
  unfold sumSamplesTau
  norm_num

/-- C5.  `bkw_reduce` leaves the dimension unchanged during the iterations
(each iteration of either variant preserves `k`), performs the single
truncation after the final iteration, and the post-state dimension is
`k − (a−1)·b`. -/
theorem bkw_reduce_dimension_c5 (oracle : LpnOracle) (a b : Nat)
    (ha : 1 ≤ a) (hab : a * b ≤ oracle.k) :
    (∀ i, (bkw_reduce_inplace oracle i b).k = oracle.k) ∧
    (∀ i, (bkw_reduce_sorted oracle i b).k = oracle.k) ∧
    (bkwIterations oracle b (a - 1)).k = oracle.k ∧
    bkw_reduce oracle a b
      = LpnOracle.truncate (bkwIterations oracle b (a - 1)) (oracle.k - (a - 1) * b) ∧
    (bkw_reduce oracle a b).k = oracle.k - (a - 1) * b := by
  refine ⟨fun i => rfl, fun i => rfl, bkwIterations_k oracle b (a - 1), rfl, rfl⟩

/-- Witness for C5 at the oracle `⟨2, 0, []⟩` with `a = 2`, `b = 1`. -/
theorem bkw_reduce_dimension_c5_witness :
    (bkw_reduce ⟨2, 0, []⟩ 2 1).k = 1 :=
  (bkw_reduce_dimension_c5 ⟨2, 0, []⟩ 2 1 (by decide) (by decide)).2.2.2.2

/-- C6.  The early exit of the first-observer pass is inverted in the code:
scanning the pool tail `[(a=8), (a=12), (a=8, p=1), (a=4)]` for `k = 4`,
`b = 2` records pivots for buckets 2 and 3 and then stops at the duplicate
`(a=8, p=1)` precisely because buckets 0 and 1 still lack pivots, never
reaching the later sample `(a=4)` of bucket 1; the claim says the pass keeps
scanning while any bucket lacks a pivot. -/
theorem bkw_early_exit_inverted_c6 :
    collectFirsts 2 4 [⟨8, false⟩, ⟨12, false⟩, ⟨8, true⟩, ⟨4, false⟩] 1
        (List.replicate 4 none)
      = [none, none, some 1, some 2] ∧
    query_bits_range ⟨4, false⟩ 2 4 = 1 := by
  refine ⟨by decide, by decide⟩

end LpnSpec

namespace LpnSpec

/-- C8.  Code round-trip for the four catalogued Guava codes: decoding the
encoding of any message returns the message, and decoding any codeword
(an encoding of some message) returns it unchanged. -/
theorem code_round_trip_c8 :
    (∀ m, m < 2 ^ 2 →
      decodeToMessage parity7_2 syndromeMap7_2 2 (encodeRows generator7_2 m) = some m ∧
      decodeToCode parity7_2 syndromeMap7_2 (encodeRows generator7_2 m)
        = some (encodeRows generator7_2 m)) ∧
    (∀ m, m < 2 ^ 6 →
      decodeToMessage parity9_6 syndromeMap9_6 6 (encodeRows generator9_6 m) = some m ∧
      decodeToCode parity9_6 syndromeMap9_6 (encodeRows generator9_6 m)
        = some (encodeRows generator9_6 m)) ∧
    (∀ m, m < 2 ^ 5 →
      decodeToMessage parity10_5 syndromeMap10_5 5 (encodeRows generator10_5 m) = some m ∧
      decodeToCode parity10_5 syndromeMap10_5 (encodeRows generator10_5 m)
        = some (encodeRows generator10_5 m)) ∧
    (∀ m, m < 2 ^ 7 →
      decodeToMessage parity11_7 syndromeMap11_7 7 (encodeRows generator11_7 m) = some m ∧
      decodeToCode parity11_7 syndromeMap11_7 (encodeRows generator11_7 m)
        = some (encodeRows generator11_7 m)) := by
  refine ⟨?_, ?_, ?_, ?_⟩ <;> decide

/-- Witness for C8 at the message `m = 3` of the `[7,2]` code. -/
theorem code_round_trip_c8_witness :
    decodeToMessage parity7_2 syndromeMap7_2 2 (encodeRows generator7_2 3) = some 3 :=
  (code_round_trip_c8.1 3 (by decide)).1

/-- C9.  The syndrome maps of the four catalogued codes are total over the
full `2^(n−dim)` syndrome range (which contains every syndrome reachable as
`H·c`), hence `decode_to_code` succeeds on every input word — in particular
the `[7,2]` map holds all `2^5 = 32` syndrome words. -/
theorem syndrome_map_total_c9 :
    (∀ c : Nat, (decodeToCode parity7_2 syndromeMap7_2 c).isSome) ∧
    (∀ c : Nat, (decodeToCode parity9_6 syndromeMap9_6 c).isSome) ∧
    (∀ c : Nat, (decodeToCode parity10_5 syndromeMap10_5 c).isSome) ∧
    (∀ c : Nat, (decodeToCode parity11_7 syndromeMap11_7 c).isSome) ∧
    ((List.range 32).all fun s => (List.lookup s syndromeMap7_2).isSome) = true ∧
    ((List.range 8).all fun s => (List.lookup s syndromeMap9_6).isSome) = true ∧
    ((List.range 32).all fun s => (List.lookup s syndromeMap10_5).isSome) = true ∧
    ((List.range 16).all fun s => (List.lookup s syndromeMap11_7).isSome) = true := by
  refine ⟨fun c => decodeToCode_isSome _ _ c (by decide),
    fun c => decodeToCode_isSome _ _ c (by decide),
    fun c => decodeToCode_isSome _ _ c (by decide),
    fun c => decodeToCode_isSome _ _ c (by decide),
    by decide, by decide, by decide, by decide⟩

end LpnSpec


namespace LpnSpec

theorem lookupTally_bump (m : List (Nat × Nat × Nat)) (key : Nat) (p : Bool) (v : Nat) :
    lookupTally (bump m key p) v =
      if v = key then
        match lookupTally m v with
        | none => some (1, if p then 1 else 0)
        | some cs => some (cs.1 + 1, if p then cs.2 + 1 else cs.2)
      else lookupTally m v := by
  induction m with
  | nil =>
    by_cases hv : v = key
    · subst hv; simp [bump, lookupTally]
    · have hv' : ¬ key = v := fun h => hv h.symm
      simp [bump, lookupTally, hv, hv']
  | cons e rest ih =>
    obtain ⟨k0, c, s⟩ := e
    by_cases hk : k0 = key
    · subst hk
      by_cases hv : v = k0
      · subst hv; simp [bump, lookupTally]
      · have hv' : ¬ k0 = v := fun h => hv h.symm
        simp [bump, lookupTally, hv, hv']
    · by_cases hv : v = k0
      · subst hv
        have hv' : ¬ v = key := fun h => hk (h ▸ rfl)
        simp [bump, lookupTally, hk, hv']
      · have hv' : ¬ k0 = v := fun h => hv h.symm
        simp [bump, lookupTally, hk, hv', ih]

theorem lookupTally_foldl_bump (l : List Sample) (m : List (Nat × Nat × Nat)) (v : Nat) :
    lookupTally (l.foldl (fun acc q => bump acc (q.get_block 0) q.p) m) v =
      (match lookupTally m v with
       | none =>
         if (l.filter fun q => q.get_block 0 == v).length = 0 then none
         else some ((l.filter fun q => q.get_block 0 == v).length,
           (l.filter fun q => q.get_block 0 == v && q.p).length)
       | some cs => some (cs.1 + (l.filter fun q => q.get_block 0 == v).length,
           cs.2 + (l.filter fun q => q.get_block 0 == v && q.p).length)) := by
  induction l generalizing m with
  | nil =>
    cases hmv : lookupTally m v with
    | none => simp [hmv]
    | some cs => simp [hmv]
  | cons q rest ih =>
    rw [List.foldl_cons, ih (bump m (q.get_block 0) q.p), lookupTally_bump]
    by_cases hv : v = q.get_block 0
    · have hb : (q.get_block 0 == v) = true := by simp [hv]
      have h1 : ((q :: rest).filter fun x => x.get_block 0 == v).length
          = ((rest.filter fun x => x.get_block 0 == v)).length + 1 := by
        simp [List.filter_cons, hb]
      rw [if_pos hv]
      cases hp : q.p with
      | false =>
        have h2 : ((q :: rest).filter fun x => x.get_block 0 == v && x.p).length
            = ((rest.filter fun x => x.get_block 0 == v && x.p)).length := by
          simp [List.filter_cons, hb, hp]
        cases hmv : lookupTally m v with
        | none =>
          rw [h1, h2]
          have h3 : ¬ ((rest.filter fun x => x.get_block 0 == v).length + 1 = 0) :=
            Nat.succ_ne_zero _
          simp only [h3, if_false]
          refine congrArg some ?_
          refine Prod.ext ?_ ?_ <;> simp [Nat.add_comm]
        | some cs =>
          rw [h1, h2]
          refine congrArg some ?_
          refine Prod.ext ?_ ?_ <;> simp [Nat.add_comm, Nat.add_assoc, Nat.add_left_comm]
      | true =>
        have h2 : ((q :: rest).filter fun x => x.get_block 0 == v && x.p).length
            = ((rest.filter fun x => x.get_block 0 == v && x.p)).length + 1 := by
          simp [List.filter_cons, hb, hp]
        cases hmv : lookupTally m v with
        | none =>
          rw [h1, h2]
          have h3 : ¬ ((rest.filter fun x => x.get_block 0 == v).length + 1 = 0) :=
            Nat.succ_ne_zero _
          simp only [h3, if_false]
          refine congrArg some ?_
          refine Prod.ext ?_ ?_ <;> simp [Nat.add_comm]
        | some cs =>
          rw [h1, h2]
          refine congrArg some ?_
          refine Prod.ext ?_ ?_ <;> simp [Nat.add_comm, Nat.add_assoc, Nat.add_left_comm]
    · have hb : (q.get_block 0 == v) = false := by
        simp only [beq_eq_false_iff_ne, ne_eq]
        exact fun h => hv h.symm
      have h1 : ((q :: rest).filter fun x => x.get_block 0 == v)
          = rest.filter fun x => x.get_block 0 == v := by
        simp [List.filter_cons, hb]
      have h2 : ((q :: rest).filter fun x => x.get_block 0 == v && x.p)
          = rest.filter fun x => x.get_block 0 == v && x.p := by
        simp [List.filter_cons, hb]
      rw [if_neg hv, h1, h2]

theorem lookupTally_tally (l : List Sample) (v : Nat) :
    lookupTally (tally l) v =
      if (l.filter fun q => q.get_block 0 == v).length = 0 then none
      else some ((l.filter fun q => q.get_block 0 == v).length,
        (l.filter fun q => q.get_block 0 == v && q.p).length) := by
  have h := lookupTally_foldl_bump l [] v
  simpa [tally, lookupTally] using h

end LpnSpec

namespace LpnSpec

theorem mapM_bitAt_some {m : List (Nat × Nat × Nat)} {l : List Nat} {g : Nat → Bool}
    (h : ∀ x ∈ l, bitAt m x = some (g x)) :
    l.mapM (bitAt m) = some (l.map g) := by
  induction l with
  | nil => rfl
  | cons x rest ih =>
    rw [List.mapM_cons, h x (List.mem_cons_self x rest),
      ih fun y hy => h y (List.mem_cons_of_mem x hy)]
    rfl

theorem mapM_bitAt_none {m : List (Nat × Nat × Nat)} {l : List Nat} {x : Nat}
    (hx : x ∈ l) (h : bitAt m x = none) : l.mapM (bitAt m) = none := by
  induction l with
  | nil => cases hx
  | cons y rest ih =>
    rcases List.mem_cons.mp hx with rfl | hmem
    · rw [List.mapM_cons, h]; rfl
    · rw [List.mapM_cons]
      cases hy : bitAt m y with
      | none => rfl
      | some b => rw [ih hmem]; rfl

theorem keptSamples_get_block (oracle : LpnOracle) (hk : oracle.k ≤ 20)
    (hs : ∀ q ∈ oracle.samples, q.a < 2 ^ oracle.k) :
    ∀ q ∈ keptSamples oracle, q.get_block 0 = q.a := by
  intro q hq
  have hmem : q ∈ oracle.samples := List.mem_of_mem_filter hq
  have ha : q.a < 2 ^ 64 := by
    calc q.a < 2 ^ oracle.k := hs q hmem
    _ ≤ 2 ^ 20 := Nat.pow_le_pow_right (by norm_num) hk
    _ < 2 ^ 64 := by norm_num
  show (q.a >>> (64 * 0)) % 2 ^ 64 = q.a
  rw [Nat.mul_zero, Nat.shiftRight_zero, Nat.mod_eq_of_lt ha]

theorem bucket_filter_eq (oracle : LpnOracle) (hk : oracle.k ≤ 20)
    (hs : ∀ q ∈ oracle.samples, q.a < 2 ^ oracle.k) (i : Nat) :
    ((keptSamples oracle).filter fun q => q.get_block 0 == 2 ^ i)
      = (keptSamples oracle).filter fun q => q.a == 2 ^ i := by
  refine List.filter_congr fun q hq => ?_
  rw [keptSamples_get_block oracle hk hs q hq]

theorem bucket_filter_ones_eq (oracle : LpnOracle) (hk : oracle.k ≤ 20)
    (hs : ∀ q ∈ oracle.samples, q.a < 2 ^ oracle.k) (i : Nat) :
    ((keptSamples oracle).filter fun q => q.get_block 0 == 2 ^ i && q.p)
      = (keptSamples oracle).filter fun q => q.a == 2 ^ i && q.p := by
  refine List.filter_congr fun q hq => ?_
  rw [keptSamples_get_block oracle hk hs q hq]

theorem bitAt_tally_kept (oracle : LpnOracle) (hk : oracle.k ≤ 20)
    (hs : ∀ q ∈ oracle.samples, q.a < 2 ^ oracle.k) (i : Nat) :
    bitAt (tally (keptSamples oracle)) i =
      if bucketCount oracle i = 0 then none
      else some (decide (bucketCount oracle i < 2 * bucketOnes oracle i)) := by
  unfold bitAt
  rw [lookupTally_tally, bucket_filter_eq oracle hk hs, bucket_filter_ones_eq oracle hk hs]
  unfold bucketCount bucketOnes
  by_cases hz : (List.filter (fun q => q.a == 2 ^ i) (keptSamples oracle)).length = 0
  · simp only [if_pos hz]
  · simp only [if_neg hz]

end LpnSpec

namespace LpnSpec

/-- C3.  The majority solver keeps exactly the Hamming-weight-1 samples, and
for an oracle (satisfying the oracle invariant that sample bits at positions
`≥ k` are zero, and the solver's `k ≤ 20` precondition) whose buckets are
all non-empty, bit `i` of the output is set exactly when
`2·sum_i > count_i`, where `count_i` counts the kept samples with `a = e_i`
and `sum_i` those of them with product bit 1. -/
theorem majority_bits_c3 (oracle : LpnOracle) (hk : oracle.k ≤ 20)
    (hs : ∀ q ∈ oracle.samples, q.a < 2 ^ oracle.k)
    (hne : ∀ i, i < oracle.k → 0 < bucketCount oracle i) :
    majority oracle = some ((List.range oracle.k).map fun i =>
      decide (2 * bucketOnes oracle i > bucketCount oracle i)) := by
  show (List.range oracle.k).mapM (bitAt (tally (keptSamples oracle))) = _
  refine mapM_bitAt_some fun i hi => ?_
  rw [bitAt_tally_kept oracle hk hs i,
    if_neg (Nat.pos_iff_ne_zero.mp (hne i (List.mem_range.mp hi)))]

/-- Witness for C3: the dimension-1 oracle with pool `[(a=1, p=1)]` has
bucket 0 populated and the solver outputs `[true]`. -/
theorem majority_bits_c3_witness : majority ⟨1, 0, [⟨1, true⟩]⟩ = some [true] := by
  have h := majority_bits_c3 ⟨1, 0, [⟨1, true⟩]⟩ (by decide)
    (by decide) (by decide)
  simpa using h

/-- C7.  If some position `i < k` has no kept sample with `a = e_i`, the
majority solver aborts (the `expect` panic on the empty bucket, modelled as
`none`) and returns no partial secret. -/
theorem majority_empty_bucket_c7 (oracle : LpnOracle) (hk : oracle.k ≤ 20)
    (hs : ∀ q ∈ oracle.samples, q.a < 2 ^ oracle.k)
    (i : Nat) (hi : i < oracle.k) (hz : bucketCount oracle i = 0) :
    majority oracle = none := by
  show (List.range oracle.k).mapM (bitAt (tally (keptSamples oracle))) = none
  refine mapM_bitAt_none (List.mem_range.mpr hi) ?_
  rw [bitAt_tally_kept oracle hk hs i, if_pos hz]

/-- Witness for C7: a dimension-1 oracle with an empty pool has an empty
bucket 0 and the solver aborts. -/
theorem majority_empty_bucket_c7_witness : majority ⟨1, 0, []⟩ = none :=
  majority_empty_bucket_c7 ⟨1, 0, []⟩ (by decide) (by decide) 0 (by decide) (by decide)

end LpnSpec

namespace LpnSpec

theorem collectFirsts_length (lo hi : Nat) :
    ∀ (l : List Sample) (j : Nat) (firsts : List (Option Nat)),
      (collectFirsts lo hi l j firsts).length = firsts.length := by
  intro l
  induction l with
  | nil => intro j firsts; rfl
  | cons q rest ih =>
    intro j firsts
    cases hcase : firsts.getD (query_bits_range q lo hi) none with
    | some v =>
      rw [List.getD_eq_getElem?_getD] at hcase
      by_cases hany : (firsts.any fun item => item.isNone) = true
      · simp [collectFirsts, hcase, hany]
      · simp only [Bool.not_eq_true] at hany
        simp [collectFirsts, hcase, hany, ih]
    | none =>
      rw [List.getD_eq_getElem?_getD] at hcase
      simp [collectFirsts, hcase, ih, List.length_set]

theorem insertLe_length (le : α → α → Bool) (x : α) (l : List α) :
    (insertLe le x l).length = l.length + 1 := by
  induction l with
  | nil => rfl
  | cons y rest ih =>
    unfold insertLe
    by_cases h : le x y = true
    · simp [h]
    · simp only [Bool.not_eq_true] at h
      simp [h, ih]

theorem insertionSort_length (le : α → α → Bool) (l : List α) :
    (insertionSort le l).length = l.length := by
  induction l with
  | nil => rfl
  | cons x rest ih => simp [insertionSort, insertLe_length, ih]

theorem swapRemove_length_ge (l : List Sample) (i : Nat) :
    l.length ≤ (swapRemove l i).length + 1 := by
  unfold swapRemove
  rw [List.length_dropLast, List.length_set]
  omega

theorem removeAndStore_fst_length :
    ∀ (idxs : List Nat) (samples : List Sample) (firsts : List (Option Sample)),
      samples.length ≤ (removeAndStore idxs samples firsts).1.length + idxs.length := by
  intro idxs
  induction idxs with
  | nil => intro samples firsts; simp [removeAndStore]
  | cons i rest ih =>
    intro samples firsts
    have h1 := swapRemove_length_ge samples i
    have h2 := ih (swapRemove samples i) (firsts.set i (some (samples.getD i ⟨0, false⟩)))
    unfold removeAndStore
    simp only [List.length_cons]
    omega

theorem xorPass_length (firsts : List (Option Sample)) (lo hi : Nat) (samples : List Sample) :
    (xorPass firsts lo hi samples).length = samples.length := by
  unfold xorPass; exact List.length_map _ _

theorem descendingIdxs_length_le (firsts : List (Option Nat)) :
    (descendingIdxs firsts).length ≤ firsts.length := by
  unfold descendingIdxs
  rw [insertionSort_length]
  exact List.length_filterMap_le id firsts

theorem bkw_reduce_inplace_length (oracle : LpnOracle) (i b : Nat) :
    oracle.samples.length ≤ (bkw_reduce_inplace oracle i b).samples.length + 2 ^ b := by
  unfold bkw_reduce_inplace
  simp only [xorPass_length]
  have hidxs : (descendingIdxs (collectFirsts (oracle.k - b * i) (oracle.k - b * (i - 1))
      (oracle.samples.drop 1) 1 (List.replicate (2 ^ b) none))).length ≤ 2 ^ b := by
    calc (descendingIdxs _).length
        ≤ (collectFirsts (oracle.k - b * i) (oracle.k - b * (i - 1))
            (oracle.samples.drop 1) 1 (List.replicate (2 ^ b) none)).length :=
          descendingIdxs_length_le _
      _ = 2 ^ b := by rw [collectFirsts_length, List.length_replicate]
  have hrem := removeAndStore_fst_length
    (descendingIdxs (collectFirsts (oracle.k - b * i) (oracle.k - b * (i - 1))
      (oracle.samples.drop 1) 1 (List.replicate (2 ^ b) none)))
    oracle.samples (List.replicate (2 ^ b) none)
  omega

end LpnSpec

namespace LpnSpec

theorem insertLe_perm (le : α → α → Bool) (x : α) (l : List α) :
    List.Perm (insertLe le x l) (x :: l) := by
  induction l with
  | nil => exact List.Perm.refl _
  | cons y rest ih =>
    unfold insertLe
    by_cases h : le x y = true
    · rw [if_pos h]
    · rw [if_neg h]
      exact (List.Perm.cons y ih).trans (List.Perm.swap x y rest)

theorem insertionSort_perm (le : α → α → Bool) (l : List α) :
    List.Perm (insertionSort le l) l := by
  induction l with
  | nil => exact List.Perm.refl _
  | cons x rest ih =>
    exact (insertLe_perm le x (insertionSort le rest)).trans (List.Perm.cons x ih)

theorem insertLe_pairwise (le : α → α → Bool)
    (htrans : ∀ a b c, le a b = true → le b c = true → le a c = true)
    (htot : ∀ a b, le a b = false → le b a = true)
    (x : α) (l : List α) (hl : l.Pairwise fun a b => le a b = true) :
    (insertLe le x l).Pairwise fun a b => le a b = true := by
  induction l with
  | nil => simp [insertLe]
  | cons y rest ih =>
    rcases List.pairwise_cons.mp hl with ⟨hy, hrest⟩
    unfold insertLe
    by_cases h : le x y = true
    · rw [if_pos h]
      refine List.pairwise_cons.mpr ⟨?_, hl⟩
      intro b hb
      rcases List.mem_cons.mp hb with rfl | hb'
      · exact h
      · exact htrans x y b h (hy b hb')
    · rw [if_neg h]
      refine List.pairwise_cons.mpr ⟨?_, ih hrest⟩
      intro b hb
      have hmem := (insertLe_perm le x rest).mem_iff.mp hb
      rcases List.mem_cons.mp hmem with rfl | hb'
      · exact htot b y (by simpa using h)
      · exact hy b hb'

theorem insertionSort_pairwise (le : α → α → Bool)
    (htrans : ∀ a b c, le a b = true → le b c = true → le a c = true)
    (htot : ∀ a b, le a b = false → le b a = true)
    (l : List α) :
    (insertionSort le l).Pairwise fun a b => le a b = true := by
  induction l with
  | nil => simp [insertionSort]
  | cons x rest ih => exact insertLe_pairwise le htrans htot x _ ih

theorem dropWhile_head_false {p : α → Bool} :
    ∀ (l : List α) {x : α} {t : List α}, l.dropWhile p = x :: t → p x = false := by
  intro l
  induction l with
  | nil => intro x t h; cases h
  | cons y rest ih =>
    intro x t h
    rw [List.dropWhile_cons] at h
    by_cases hy : p y = true
    · rw [if_pos hy] at h; exact ih h
    · rw [if_neg hy] at h
      cases h
      simpa using hy

end LpnSpec

namespace LpnSpec


theorem takeWhile_keyEq_cons (lo hi : Nat) (q : Sample) (rest : List Sample) :
    ((q :: rest).takeWhile fun r => query_bits_range q lo hi == query_bits_range r lo hi)
      = q :: (rest.takeWhile fun r => query_bits_range q lo hi == query_bits_range r lo hi) :=
  @List.takeWhile_cons_of_pos _
    (fun r => query_bits_range q lo hi == query_bits_range r lo hi) q rest (by simp)

theorem dropWhile_keyEq_cons (lo hi : Nat) (q : Sample) (rest : List Sample) :
    ((q :: rest).dropWhile fun r => query_bits_range q lo hi == query_bits_range r lo hi)
      = rest.dropWhile fun r => query_bits_range q lo hi == query_bits_range r lo hi :=
  @List.dropWhile_cons_of_pos _
    (fun r => query_bits_range q lo hi == query_bits_range r lo hi) q rest (by simp)

theorem mem_keyEq_takeWhile {lo hi : Nat} {q x : Sample} {l : List Sample}
    (hx : x ∈ l.takeWhile fun r => query_bits_range q lo hi == query_bits_range r lo hi) :
    query_bits_range q lo hi = query_bits_range x lo hi :=
  eq_of_beq (@List.mem_takeWhile_imp _
    (fun r => query_bits_range q lo hi == query_bits_range r lo hi) l x hx)

theorem splitRunsAux_cons (lo hi fuel : Nat) (q : Sample) (rest : List Sample) :
    splitRunsAux lo hi (fuel + 1) (q :: rest)
      = ((q :: rest).takeWhile fun r => query_bits_range q lo hi == query_bits_range r lo hi) ::
        splitRunsAux lo hi fuel
          ((q :: rest).dropWhile fun r =>
            query_bits_range q lo hi == query_bits_range r lo hi) := rfl

theorem dropWhile_keyEq_len (lo hi : Nat) (q : Sample) (rest : List Sample) {fuel : Nat}
    (hl : (q :: rest).length ≤ fuel + 1) :
    ((q :: rest).dropWhile fun r =>
      query_bits_range q lo hi == query_bits_range r lo hi).length ≤ fuel := by
  rw [dropWhile_keyEq_cons]
  calc (rest.dropWhile _).length ≤ rest.length := (List.dropWhile_sublist _).length_le
  _ ≤ fuel := by simpa using hl

theorem splitRunsAux_flatten (lo hi : Nat) :
    ∀ (fuel : Nat) (l : List Sample), l.length ≤ fuel →
      (splitRunsAux lo hi fuel l).flatten = l := by
  intro fuel
  induction fuel with
  | zero =>
    intro l hl
    rw [Nat.le_zero, List.length_eq_zero] at hl
    subst hl; rfl
  | succ fuel ih =>
    intro l hl
    cases l with
    | nil => rfl
    | cons q rest =>
      rw [splitRunsAux_cons, List.flatten_cons,
        ih _ (dropWhile_keyEq_len lo hi q rest hl), List.takeWhile_append_dropWhile]

theorem splitRunsAux_ne_nil (lo hi : Nat) :
    ∀ (fuel : Nat) (l : List Sample), ∀ part ∈ splitRunsAux lo hi fuel l, part ≠ [] := by
  intro fuel
  induction fuel with
  | zero => intro l part hp; cases hp
  | succ fuel ih =>
    intro l part hp
    cases l with
    | nil => cases hp
    | cons q rest =>
      rw [splitRunsAux_cons] at hp
      rcases List.mem_cons.mp hp with rfl | hmem
      · rw [takeWhile_keyEq_cons]
        exact List.cons_ne_nil _ _
      · exact ih _ part hmem

theorem splitRunsAux_key_const (lo hi : Nat) :
    ∀ (fuel : Nat) (l : List Sample), ∀ part ∈ splitRunsAux lo hi fuel l,
      ∀ x ∈ part, ∀ y ∈ part, query_bits_range x lo hi = query_bits_range y lo hi := by
  intro fuel
  induction fuel with
  | zero => intro l part hp; cases hp
  | succ fuel ih =>
    intro l part hp
    cases l with
    | nil => cases hp
    | cons q rest =>
      rw [splitRunsAux_cons] at hp
      rcases List.mem_cons.mp hp with rfl | hmem
      · intro x hx y hy
        rw [← mem_keyEq_takeWhile hx, ← mem_keyEq_takeWhile hy]
      · exact ih _ part hmem

theorem headD_mem {l : List Sample} (h : l ≠ []) : l.headD ⟨0, false⟩ ∈ l := by
  cases l with
  | nil => exact absurd rfl h
  | cons a t => exact List.mem_cons_self a t

theorem splitRunsAux_heads_lt (lo hi : Nat) :
    ∀ (fuel : Nat) (l : List Sample), l.length ≤ fuel →
      l.Pairwise (fun x y => query_bits_range x lo hi ≤ query_bits_range y lo hi) →
      ((splitRunsAux lo hi fuel l).map fun part =>
        query_bits_range (part.headD ⟨0, false⟩) lo hi).Pairwise (· < ·) := by
  intro fuel
  induction fuel with
  | zero =>
    intro l hl hs
    rw [Nat.le_zero, List.length_eq_zero] at hl
    subst hl
    exact List.Pairwise.nil
  | succ fuel ih =>
    intro l hl hs
    cases l with
    | nil => exact List.Pairwise.nil
    | cons q rest =>
      have hsrest : rest.Pairwise
          (fun x y => query_bits_range x lo hi ≤ query_bits_range y lo hi) :=
        (List.pairwise_cons.mp hs).2
      have hqrest : ∀ x ∈ rest, query_bits_range q lo hi ≤ query_bits_range x lo hi :=
        (List.pairwise_cons.mp hs).1
      have hdsorted : (rest.dropWhile
          fun r => query_bits_range q lo hi == query_bits_range r lo hi).Pairwise
          (fun x y => query_bits_range x lo hi ≤ query_bits_range y lo hi) :=
        hsrest.sublist (List.dropWhile_sublist _)
      have hkey : ∀ x ∈ rest.dropWhile
          (fun r => query_bits_range q lo hi == query_bits_range r lo hi),
          query_bits_range q lo hi < query_bits_range x lo hi := by
        intro x hx
        cases hdw : rest.dropWhile
            (fun r => query_bits_range q lo hi == query_bits_range r lo hi) with
        | nil => rw [hdw] at hx; cases hx
        | cons h0 t0 =>
          rw [hdw] at hx hdsorted
          have hh0 : query_bits_range q lo hi ≠ query_bits_range h0 lo hi := by
            have hfalse := dropWhile_head_false rest hdw
            simpa using hfalse
          have hh0mem : h0 ∈ rest :=
            (List.dropWhile_sublist _).mem (hdw ▸ List.mem_cons_self h0 t0)
          have hqh0 : query_bits_range q lo hi < query_bits_range h0 lo hi :=
            lt_of_le_of_ne (hqrest h0 hh0mem) hh0
          rcases List.mem_cons.mp hx with rfl | hx'
          · exact hqh0
          · exact lt_of_lt_of_le hqh0 ((List.pairwise_cons.mp hdsorted).1 x hx')
      rw [splitRunsAux_cons, List.map_cons]
      refine List.pairwise_cons.mpr ⟨?_, ?_⟩
      · intro v hv
        rcases List.mem_map.mp hv with ⟨part, hpart, rfl⟩
        have hpne : part ≠ [] := splitRunsAux_ne_nil lo hi fuel _ part hpart
        have hheadmem : part.headD ⟨0, false⟩ ∈ part := headD_mem hpne
        have hfl : (splitRunsAux lo hi fuel ((q :: rest).dropWhile
            (fun r => query_bits_range q lo hi == query_bits_range r lo hi))).flatten
            = (q :: rest).dropWhile
              (fun r => query_bits_range q lo hi == query_bits_range r lo hi) :=
          splitRunsAux_flatten lo hi fuel _ (dropWhile_keyEq_len lo hi q rest hl)
        have hmemdrop : part.headD ⟨0, false⟩ ∈ (q :: rest).dropWhile
            (fun r => query_bits_range q lo hi == query_bits_range r lo hi) := by
          rw [← hfl]
          exact List.mem_flatten.mpr ⟨part, hpart, hheadmem⟩
        rw [dropWhile_keyEq_cons] at hmemdrop
        have hlt := hkey _ hmemdrop
        rw [takeWhile_keyEq_cons]
        simpa using hlt
      · have hres := ih ((q :: rest).dropWhile
          (fun r => query_bits_range q lo hi == query_bits_range r lo hi))
          (dropWhile_keyEq_len lo hi q rest hl)
          (by rw [dropWhile_keyEq_cons]; exact hdsorted)
        exact hres

end LpnSpec

namespace LpnSpec

theorem getLastD_eq_getElem (l : List Sample) (h : l ≠ []) :
    l.getLastD ⟨0, false⟩ = l.getD (l.length - 1) ⟨0, false⟩ := by
  have hpos : 0 < l.length := List.length_pos.mpr h
  rw [List.getLastD_eq_getLast?, List.getLast?_eq_getElem?, List.getD_eq_getElem?_getD]

theorem swapRemove_length (l : List Sample) (i : Nat) (h : i < l.length) :
    (swapRemove l i).length = l.length - 1 := by
  unfold swapRemove
  rw [List.length_dropLast, List.length_set]

theorem swapRemove_perm (l : List Sample) (i : Nat) (h : i < l.length) :
    List.Perm (l.getD i ⟨0, false⟩ :: swapRemove l i) l := by
  have hne : l ≠ [] := List.length_pos.mp (lt_of_le_of_lt (Nat.zero_le i) h)
  have hset : l.set i (l.getLastD ⟨0, false⟩)
      = l.take i ++ l.getLastD ⟨0, false⟩ :: l.drop (i + 1) := by
    rw [List.set_eq_take_append_cons_drop, if_pos h]
  have hdropi : l.drop i = l.getD i ⟨0, false⟩ :: l.drop (i + 1) := by
    rw [List.getD_eq_getElem l _ h]
    exact List.drop_eq_getElem_cons h
  have hl : l = l.take i ++ l.getD i ⟨0, false⟩ :: l.drop (i + 1) := by
    conv_lhs => rw [← List.take_append_drop i l, hdropi]
  by_cases hc : i + 1 < l.length
  · have hd : l.drop (i + 1) ≠ [] := by
      have : (l.drop (i + 1)).length = l.length - (i + 1) := List.length_drop _ _
      intro hcon
      rw [hcon] at this
      simp at this
      omega
    have hgl : l.getLastD ⟨0, false⟩ = (l.drop (i + 1)).getLastD ⟨0, false⟩ := by
      have hidx : i + 1 + ((l.drop (i + 1)).length - 1) = l.length - 1 := by
        rw [List.length_drop]; omega
      rw [getLastD_eq_getElem l hne, getLastD_eq_getElem _ hd,
        List.getD_eq_getElem?_getD, List.getD_eq_getElem?_getD,
        List.getElem?_drop, hidx]
    have hdecomp : l.drop (i + 1)
        = (l.drop (i + 1)).dropLast ++ [l.getLastD ⟨0, false⟩] := by
      rw [hgl, List.getLastD_eq_getLast?, List.getLast?_eq_getLast _ hd, Option.getD_some]
      exact (List.dropLast_append_getLast hd).symm
    have hdl : swapRemove l i
        = l.take i ++ l.getLastD ⟨0, false⟩ :: (l.drop (i + 1)).dropLast := by
      unfold swapRemove
      rw [hset]
      rw [show (l.getLastD ⟨0, false⟩ :: l.drop (i + 1))
          = [l.getLastD ⟨0, false⟩] ++ l.drop (i + 1) from rfl,
        ← List.append_assoc, List.dropLast_append_of_ne_nil _ hd, List.append_assoc]
      rfl
    rw [hdl]
    refine List.Perm.trans (List.perm_middle.symm) ?_
    conv_rhs => rw [hl]
    refine List.Perm.append_left (l.take i) ?_
    refine List.Perm.cons _ ?_
    conv_rhs => rw [hdecomp]
    exact (List.perm_append_singleton _ _).symm
  · have hc' : i + 1 = l.length := by omega
    have hdrop : l.drop (i + 1) = [] := by
      rw [hc']; exact List.drop_length l
    have hgl : l.getLastD ⟨0, false⟩ = l.getD i ⟨0, false⟩ := by
      rw [getLastD_eq_getElem l hne]
      congr 1
      omega
    have hdl : swapRemove l i = l.take i := by
      unfold swapRemove
      rw [hset, hdrop, List.dropLast_concat]
    rw [hdl]
    conv_rhs => rw [hl, hdrop]
    exact (List.perm_append_singleton _ _).symm

theorem swapRemove_getD_lt (l : List Sample) (i j : Nat) (hj : j < i) (hi : i < l.length) :
    (swapRemove l i).getD j ⟨0, false⟩ = l.getD j ⟨0, false⟩ := by
  have hjlen : j < (swapRemove l i).length := by
    rw [swapRemove_length l i hi]; omega
  have hjlen' : j < l.length := by omega
  rw [List.getD_eq_getElem _ _ hjlen, List.getD_eq_getElem _ _ hjlen']
  unfold swapRemove
  unfold swapRemove at hjlen
  rw [List.getElem_dropLast, List.getElem_set_ne (by omega)]

theorem foldl_swapRemove_perm :
    ∀ (idxs : List Nat) (l : List Sample),
      idxs.Pairwise (fun x y => y < x) → (∀ j ∈ idxs, j < l.length) →
      List.Perm ((idxs.map fun j => l.getD j ⟨0, false⟩) ++ idxs.foldl swapRemove l) l := by
  intro idxs
  induction idxs with
  | nil => intro l _ _; exact List.Perm.refl l
  | cons i rest ih =>
    intro l hpw hval
    have hi : i < l.length := hval i (List.mem_cons_self i rest)
    have hlt : ∀ j ∈ rest, j < i := (List.pairwise_cons.mp hpw).1
    have hval' : ∀ j ∈ rest, j < (swapRemove l i).length := by
      intro j hj
      rw [swapRemove_length l i hi]
      have := hlt j hj
      omega
    have hmap : (rest.map fun j => (swapRemove l i).getD j ⟨0, false⟩)
        = rest.map fun j => l.getD j ⟨0, false⟩ :=
      List.map_congr_left fun j hj => swapRemove_getD_lt l i j (hlt j hj) hi
    have hIH := ih (swapRemove l i) (List.pairwise_cons.mp hpw).2 hval'
    rw [hmap] at hIH
    have hstep : ((i :: rest).map fun j => l.getD j ⟨0, false⟩) ++ (i :: rest).foldl swapRemove l
        = l.getD i ⟨0, false⟩ ::
          ((rest.map fun j => l.getD j ⟨0, false⟩) ++ rest.foldl swapRemove (swapRemove l i)) := by
      rw [List.map_cons, List.foldl_cons, List.cons_append]
    rw [hstep]
    exact (List.Perm.cons _ hIH).trans (swapRemove_perm l i hi)

end LpnSpec

namespace LpnSpec

theorem xorRun_ne_nil {part : List Sample} (h : part ≠ []) : xorRun part ≠ [] := by
  cases part with
  | nil => exact absurd rfl h
  | cons a t => exact List.cons_ne_nil _ _

theorem xorRun_length (part : List Sample) : (xorRun part).length = part.length := by
  cases part with
  | nil => rfl
  | cons a t => simp [xorRun]

theorem runStarts_congr_length :
    ∀ (parts₁ parts₂ : List (List Sample)) (acc : Nat),
      parts₁.length = parts₂.length →
      (∀ n, (parts₁.getD n []).length = (parts₂.getD n []).length) →
      runStarts parts₁ acc = runStarts parts₂ acc := by
  intro parts₁
  induction parts₁ with
  | nil =>
    intro parts₂ acc hlen _
    cases parts₂ with
    | nil => rfl
    | cons p t => simp at hlen
  | cons p₁ t₁ ih =>
    intro parts₂ acc hlen hget
    cases parts₂ with
    | nil => simp at hlen
    | cons p₂ t₂ =>
      have h0 : p₁.length = p₂.length := by
        have := hget 0
        simpa using this
      have hrest : ∀ n, (t₁.getD n []).length = (t₂.getD n []).length := by
        intro n
        have := hget (n + 1)
        simpa using this
      show acc :: runStarts t₁ (acc + p₁.length) = acc :: runStarts t₂ (acc + p₂.length)
      rw [h0, ih t₂ _ (by simpa using hlen) hrest]

theorem runStarts_length : ∀ (parts : List (List Sample)) (acc : Nat),
    (runStarts parts acc).length = parts.length := by
  intro parts
  induction parts with
  | nil => intro acc; rfl
  | cons p rest ih => intro acc; show (acc :: runStarts rest _).length = _; simp [ih]

theorem runStarts_ge : ∀ (parts : List (List Sample)) (acc : Nat),
    ∀ j ∈ runStarts parts acc, acc ≤ j := by
  intro parts
  induction parts with
  | nil => intro acc j hj; cases hj
  | cons p rest ih =>
    intro acc j hj
    rcases List.mem_cons.mp hj with rfl | hmem
    · exact le_refl _
    · exact le_trans (Nat.le_add_right acc p.length) (ih _ j hmem)

theorem runStarts_lt_total : ∀ (parts : List (List Sample)) (acc : Nat),
    (∀ part ∈ parts, part ≠ []) →
    ∀ j ∈ runStarts parts acc, j < acc + parts.flatten.length := by
  intro parts
  induction parts with
  | nil => intro acc _ j hj; cases hj
  | cons p rest ih =>
    intro acc hne j hj
    have hp : 0 < p.length :=
      List.length_pos.mpr (hne p (List.mem_cons_self p rest))
    rcases List.mem_cons.mp hj with rfl | hmem
    · rw [List.flatten_cons, List.length_append]
      omega
    · have := ih (acc + p.length) (fun part hp' => hne part (List.mem_cons_of_mem p hp')) j hmem
      rw [List.flatten_cons, List.length_append]
      omega

theorem runStarts_pairwise : ∀ (parts : List (List Sample)) (acc : Nat),
    (∀ part ∈ parts, part ≠ []) → (runStarts parts acc).Pairwise (· < ·) := by
  intro parts
  induction parts with
  | nil => intro acc _; exact List.Pairwise.nil
  | cons p rest ih =>
    intro acc hne
    have hp : 0 < p.length :=
      List.length_pos.mpr (hne p (List.mem_cons_self p rest))
    refine List.pairwise_cons.mpr ⟨?_, ih _ fun part hp' => hne part (List.mem_cons_of_mem p hp')⟩
    intro j hj
    have := runStarts_ge rest (acc + p.length) j hj
    omega

theorem runStarts_map_getD :
    ∀ (parts : List (List Sample)) (pre : List Sample),
      (∀ part ∈ parts, part ≠ []) →
      ((runStarts parts pre.length).map fun j => (pre ++ parts.flatten).getD j ⟨0, false⟩)
        = parts.map fun part => part.headD ⟨0, false⟩ := by
  intro parts
  induction parts with
  | nil => intro pre _; rfl
  | cons p rest ih =>
    intro pre hne
    have hpne : p ≠ [] := hne p (List.mem_cons_self p rest)
    have hplen : 0 < p.length := List.length_pos.mpr hpne
    show ((pre.length :: runStarts rest (pre.length + p.length)).map
        fun j => (pre ++ (p ++ rest.flatten)).getD j ⟨0, false⟩)
      = p.headD ⟨0, false⟩ :: (rest.map fun part => part.headD ⟨0, false⟩)
    rw [List.map_cons]
    have hhead : (pre ++ (p ++ rest.flatten)).getD pre.length ⟨0, false⟩
        = p.headD ⟨0, false⟩ := by
      rw [List.getD_eq_getElem?_getD, List.getElem?_append_right (le_refl pre.length),
        Nat.sub_self]
      have h0 : (p ++ rest.flatten)[0]? = p[0]? :=
        List.getElem?_append_left hplen
      rw [h0, List.headD_eq_head?]
      cases p with
      | nil => exact absurd rfl hpne
      | cons a t => simp
    have htail : ((runStarts rest (pre.length + p.length)).map
        fun j => (pre ++ (p ++ rest.flatten)).getD j ⟨0, false⟩)
        = rest.map fun part => part.headD ⟨0, false⟩ := by
      have hlen : pre.length + p.length = (pre ++ p).length := (List.length_append _ _).symm
      have happ : pre ++ (p ++ rest.flatten) = (pre ++ p) ++ rest.flatten :=
        (List.append_assoc _ _ _).symm
      rw [hlen, happ]
      exact ih (pre ++ p) fun part hp' => hne part (List.mem_cons_of_mem p hp')
    rw [hhead, htail]

theorem flatten_perm_heads_tails :
    ∀ (parts : List (List Sample)), (∀ part ∈ parts, part ≠ []) →
      List.Perm parts.flatten
        ((parts.map fun part => part.headD ⟨0, false⟩) ++ (parts.map List.tail).flatten) := by
  intro parts
  induction parts with
  | nil => intro _; exact List.Perm.refl _
  | cons p rest ih =>
    intro hne
    cases p with
    | nil => exact absurd rfl (hne [] (List.mem_cons_self _ _))
    | cons a t =>
      have hIH := ih fun part hp' => hne part (List.mem_cons_of_mem _ hp')
      show List.Perm ((a :: t) ++ rest.flatten)
        ((a :: (rest.map fun part => part.headD ⟨0, false⟩)) ++ (t ++ (rest.map List.tail).flatten))
      rw [List.cons_append, List.cons_append]
      refine List.Perm.cons a ?_
      have h1 : List.Perm (t ++ rest.flatten)
          (t ++ ((rest.map fun part => part.headD ⟨0, false⟩) ++ (rest.map List.tail).flatten)) :=
        List.Perm.append_left t hIH
      refine h1.trans ?_
      rw [← List.append_assoc, ← List.append_assoc]
      exact List.Perm.append_right _ (List.perm_append_comm)

end LpnSpec

namespace LpnSpec

theorem map_xorRun_getD_length (parts : List (List Sample)) (n : Nat) :
    ((parts.map xorRun).getD n []).length = (parts.getD n []).length := by
  by_cases hn : n < parts.length
  · have hn' : n < (parts.map xorRun).length := by simpa using hn
    rw [List.getD_eq_getElem _ _ hn, List.getD_eq_getElem _ _ hn', List.getElem_map,
      xorRun_length]
  · have h1 : (parts.map xorRun)[n]? = none := by
      rw [List.getElem?_eq_none]
      simpa using Nat.le_of_not_lt hn
    have h2 : parts[n]? = none := by
      rw [List.getElem?_eq_none]
      exact Nat.le_of_not_lt hn
    rw [List.getD_eq_getElem?_getD, List.getD_eq_getElem?_getD, h1, h2]

theorem parts_heads_residual_perm (parts : List (List Sample))
    (hne : ∀ part ∈ parts, part ≠ []) :
    List.Perm
      ((((parts.map xorRun).map fun part => part.headD ⟨0, false⟩).reverse)
        ++ ((runStarts parts 0).reverse).foldl swapRemove ((parts.map xorRun).flatten))
      ((parts.map xorRun).flatten) := by
  have hne' : ∀ part ∈ parts.map xorRun, part ≠ [] := by
    intro part hp
    rcases List.mem_map.mp hp with ⟨p0, hp0, rfl⟩
    exact xorRun_ne_nil (hne p0 hp0)
  have hstarts : runStarts parts 0 = runStarts (parts.map xorRun) 0 :=
    runStarts_congr_length parts (parts.map xorRun) 0 (by simp)
      fun n => (map_xorRun_getD_length parts n).symm
  have hpwrev : ((runStarts (parts.map xorRun) 0).reverse).Pairwise fun x y => y < x :=
    List.pairwise_reverse.mpr (runStarts_pairwise (parts.map xorRun) 0 hne')
  have hval : ∀ j ∈ (runStarts (parts.map xorRun) 0).reverse,
      j < ((parts.map xorRun).flatten).length := by
    intro j hj
    have hj' := List.mem_reverse.mp hj
    have := runStarts_lt_total (parts.map xorRun) 0 hne' j hj'
    simpa using this
  have hmain := foldl_swapRemove_perm ((runStarts (parts.map xorRun) 0).reverse)
    ((parts.map xorRun).flatten) hpwrev hval
  have hmapg := runStarts_map_getD (parts.map xorRun) [] hne'
  simp only [List.nil_append, List.length_nil] at hmapg
  rw [hstarts]
  have hmaprev : (((runStarts (parts.map xorRun) 0).reverse).map
      fun j => ((parts.map xorRun).flatten).getD j ⟨0, false⟩)
      = ((parts.map xorRun).map fun part => part.headD ⟨0, false⟩).reverse := by
    rw [List.map_reverse, hmapg]
  rw [← hmaprev]
  exact hmain

theorem parts_residual_facts (parts : List (List Sample))
    (hne : ∀ part ∈ parts, part ≠ []) :
    (((runStarts parts 0).reverse).foldl swapRemove ((parts.map xorRun).flatten)).length
        + parts.length = ((parts.map xorRun).flatten).length ∧
    List.Perm (((runStarts parts 0).reverse).foldl swapRemove ((parts.map xorRun).flatten))
      (((parts.map xorRun).map List.tail).flatten) := by
  have hne' : ∀ part ∈ parts.map xorRun, part ≠ [] := by
    intro part hp
    rcases List.mem_map.mp hp with ⟨p0, hp0, rfl⟩
    exact xorRun_ne_nil (hne p0 hp0)
  have hmain := parts_heads_residual_perm parts hne
  constructor
  · have hlen := hmain.length_eq
    rw [List.length_append, List.length_reverse, List.length_map, List.length_map] at hlen
    omega
  · have hB := flatten_perm_heads_tails (parts.map xorRun) hne'
    have h1 : List.Perm
        (((parts.map xorRun).map fun part => part.headD ⟨0, false⟩)
          ++ ((runStarts parts 0).reverse).foldl swapRemove ((parts.map xorRun).flatten))
        ((((parts.map xorRun).map fun part => part.headD ⟨0, false⟩).reverse)
          ++ ((runStarts parts 0).reverse).foldl swapRemove ((parts.map xorRun).flatten)) :=
      List.Perm.append_right _ (List.reverse_perm _).symm
    have h2 := (h1.trans hmain).trans hB
    exact (List.perm_append_left_iff _).mp h2

theorem query_testBit (q : Sample) (lo hi j : Nat) (h1 : lo ≤ j) (h2 : j < hi) :
    (query_bits_range q lo hi).testBit (j - lo) = q.a.testBit j := by
  unfold query_bits_range
  rw [Nat.testBit_mod_two_pow, Nat.testBit_shiftRight]
  have hj : lo + (j - lo) = j := by omega
  have hlt : j - lo < hi - lo := by omega
  rw [hj]
  simp [hlt]

theorem xor_into_testBit_eq (x y : Sample) (lo hi j : Nat) (h1 : lo ≤ j) (h2 : j < hi)
    (hk : query_bits_range x lo hi = query_bits_range y lo hi) :
    (x.xor_into y).a.testBit j = false := by
  show (x.a ^^^ y.a).testBit j = false
  rw [Nat.testBit_xor]
  have hx := query_testBit x lo hi j h1 h2
  have hy := query_testBit y lo hi j h1 h2
  rw [← hx, ← hy, hk]
  exact Bool.xor_self _

theorem lt_two_pow_of_high_bits (v b : Nat) (h : ∀ t, b ≤ t → v.testBit t = false) :
    v < 2 ^ b := by
  have hv : v = v % 2 ^ b := by
    refine Nat.eq_of_testBit_eq fun t => ?_
    rw [Nat.testBit_mod_two_pow]
    by_cases ht : t < b
    · simp [ht]
    · simp [ht, h t (Nat.le_of_not_lt ht)]
  rw [hv]
  exact Nat.mod_lt v (Nat.two_pow_pos b)

theorem key_lt_two_pow (q : Sample) (lo k b : Nat)
    (hz : ∀ j, lo + b ≤ j → j < k → q.a.testBit j = false) :
    query_bits_range q lo k < 2 ^ b := by
  refine lt_two_pow_of_high_bits _ b fun t ht => ?_
  unfold query_bits_range
  rw [Nat.testBit_mod_two_pow, Nat.testBit_shiftRight]
  by_cases htw : t < k - lo
  · have hjb : lo + b ≤ lo + t := by omega
    have hjk : lo + t < k := by omega
    simp [htw, hz (lo + t) hjb hjk]
  · simp [htw]

theorem pairwise_lt_length_le (ks : List Nat) (M : Nat) (hpw : ks.Pairwise (· < ·))
    (hlt : ∀ v ∈ ks, v < M) : ks.length ≤ M := by
  have hnd : ks.Nodup := hpw.imp Nat.ne_of_lt
  have hcard : ks.toFinset.card = ks.length := List.toFinset_card_of_nodup hnd
  have hsub : ks.toFinset ⊆ Finset.range M := by
    intro v hv
    exact Finset.mem_range.mpr (hlt v (List.mem_toFinset.mp hv))
  calc ks.length = ks.toFinset.card := hcard.symm
  _ ≤ (Finset.range M).card := Finset.card_le_card hsub
  _ = M := Finset.card_range M

theorem flatten_map_xorRun_length (parts : List (List Sample)) :
    ((parts.map xorRun).flatten).length = parts.flatten.length := by
  induction parts with
  | nil => rfl
  | cons p rest ih =>
    rw [List.map_cons, List.flatten_cons, List.flatten_cons, List.length_append,
      List.length_append, xorRun_length, ih]

end LpnSpec

namespace LpnSpec

theorem splitRuns_flatten (lo hi : Nat) (l : List Sample) :
    (splitRuns lo hi l).flatten = l :=
  splitRunsAux_flatten lo hi l.length l (le_refl _)

theorem splitRuns_ne_nil (lo hi : Nat) (l : List Sample) :
    ∀ part ∈ splitRuns lo hi l, part ≠ [] :=
  splitRunsAux_ne_nil lo hi l.length l

theorem splitRuns_key_const (lo hi : Nat) (l : List Sample) :
    ∀ part ∈ splitRuns lo hi l,
      ∀ x ∈ part, ∀ y ∈ part, query_bits_range x lo hi = query_bits_range y lo hi :=
  splitRunsAux_key_const lo hi l.length l

theorem splitRuns_heads_lt (lo hi : Nat) (l : List Sample)
    (hs : l.Pairwise fun x y => query_bits_range x lo hi ≤ query_bits_range y lo hi) :
    ((splitRuns lo hi l).map fun part =>
      query_bits_range (part.headD ⟨0, false⟩) lo hi).Pairwise (· < ·) :=
  splitRunsAux_heads_lt lo hi l.length l (le_refl _) hs

theorem sortedResidual_facts (lo k b : Nat) (ss : List Sample)
    (hsorted : ss.Pairwise fun x y => query_bits_range x lo k ≤ query_bits_range y lo k)
    (hz : ∀ q ∈ ss, ∀ j, lo + b ≤ j → j < k → q.a.testBit j = false) :
    ss.length ≤ (sortedResidual lo k ss).length + 2 ^ b ∧
    (∀ q ∈ sortedResidual lo k ss, ∀ j, lo ≤ j → j < k → q.a.testBit j = false) := by
  have hne : ∀ part ∈ splitRuns lo k ss, part ≠ [] :=
    splitRuns_ne_nil lo k ss
  obtain ⟨hlen, hperm⟩ := parts_residual_facts (splitRuns lo k ss) hne
  have hflatlen : (((splitRuns lo k ss).map xorRun).flatten).length = ss.length := by
    rw [flatten_map_xorRun_length, splitRuns_flatten lo k ss]
  have hheads := splitRuns_heads_lt lo k ss hsorted
  have hkeyslt : ∀ part ∈ splitRuns lo k ss,
      query_bits_range (part.headD ⟨0, false⟩) lo k < 2 ^ b := by
    intro part hp
    have hmem : part.headD ⟨0, false⟩ ∈ ss := by
      rw [← splitRuns_flatten lo k ss]
      exact List.mem_flatten.mpr ⟨part, hp, headD_mem (hne part hp)⟩
    exact key_lt_two_pow _ lo k b (hz _ hmem)
  have hplen : (splitRuns lo k ss).length ≤ 2 ^ b := by
    have hb := pairwise_lt_length_le ((splitRuns lo k ss).map fun part =>
        query_bits_range (part.headD ⟨0, false⟩) lo k) (2 ^ b) hheads ?vals
    case vals =>
      intro v hv
      rcases List.mem_map.mp hv with ⟨part, hp, rfl⟩
      exact hkeyslt part hp
    simpa using hb
  constructor
  · show ss.length ≤ (sortedResidual lo k ss).length + 2 ^ b
    unfold sortedResidual
    omega
  · intro q hq j hj1 hj2
    unfold sortedResidual at hq
    have hq' : q ∈ (((splitRuns lo k ss).map xorRun).map List.tail).flatten :=
      hperm.mem_iff.mp hq
    rcases List.mem_flatten.mp hq' with ⟨tl, htl, hqtl⟩
    rcases List.mem_map.mp htl with ⟨part', hpart', rfl⟩
    rcases List.mem_map.mp hpart' with ⟨part, hpart, rfl⟩
    obtain ⟨first, rest, rfl⟩ : ∃ f r, part = f :: r := by
      cases part with
      | nil => exact absurd rfl (hne _ hpart)
      | cons f r => exact ⟨f, r, rfl⟩
    have htail : (xorRun (first :: rest)).tail = rest.map fun r => r.xor_into first := rfl
    rw [htail] at hqtl
    rcases List.mem_map.mp hqtl with ⟨r, hr, rfl⟩
    have hkeq : query_bits_range r lo k = query_bits_range first lo k :=
      splitRuns_key_const lo k ss _ hpart r
        (List.mem_cons_of_mem first hr) first (List.mem_cons_self first rest)
    exact xor_into_testBit_eq r first lo k j hj1 hj2 hkeq

theorem bkw_reduce_sorted_step (oracle : LpnOracle) (i b : Nat)
    (hi1 : 1 ≤ i) (hib : i * b ≤ oracle.k)
    (hinv : ∀ q ∈ oracle.samples, ∀ j, oracle.k - (i - 1) * b ≤ j → j < oracle.k →
      q.a.testBit j = false) :
    oracle.samples.length ≤ (bkw_reduce_sorted oracle i b).samples.length + 2 ^ b ∧
    (∀ q ∈ (bkw_reduce_sorted oracle i b).samples, ∀ j,
      oracle.k - i * b ≤ j → j < oracle.k → q.a.testBit j = false) := by
  have hmul : (i - 1) * b + b = i * b := by
    cases i with
    | zero => exact absurd hi1 (by omega)
    | succ n => simp [Nat.succ_mul, Nat.succ_sub_one]
  have hrange : oracle.k - i * b + b = oracle.k - (i - 1) * b := by omega
  have hpwb := insertionSort_pairwise
    (fun q r : Sample => query_bits_range q (oracle.k - i * b) oracle.k
      ≤ query_bits_range r (oracle.k - i * b) oracle.k)
    (fun a c d h1 h2 => by
      simp only [decide_eq_true_eq] at h1 h2 ⊢
      exact le_trans h1 h2)
    (fun a c h1 => by
      simp only [decide_eq_true_eq]
      have h2 : ¬ (query_bits_range a (oracle.k - i * b) oracle.k
          ≤ query_bits_range c (oracle.k - i * b) oracle.k) := by
        simpa using h1
      omega)
    oracle.samples
  have hpw : (insertionSort (fun q r : Sample =>
      query_bits_range q (oracle.k - i * b) oracle.k
        ≤ query_bits_range r (oracle.k - i * b) oracle.k) oracle.samples).Pairwise
      fun x y => query_bits_range x (oracle.k - i * b) oracle.k
        ≤ query_bits_range y (oracle.k - i * b) oracle.k := by
    refine hpwb.imp ?_
    intro a c h
    simpa using h
  have hz : ∀ q ∈ insertionSort (fun q r : Sample =>
      query_bits_range q (oracle.k - i * b) oracle.k
        ≤ query_bits_range r (oracle.k - i * b) oracle.k) oracle.samples,
      ∀ j, (oracle.k - i * b) + b ≤ j → j < oracle.k → q.a.testBit j = false := by
    intro q hq j hj1 hj2
    have hqs : q ∈ oracle.samples := (insertionSort_perm _ _).mem_iff.mp hq
    have hj1' : oracle.k - (i - 1) * b ≤ j := by omega
    exact hinv q hqs j hj1' hj2
  have hfacts := sortedResidual_facts (oracle.k - i * b) oracle.k b _ hpw hz
  have hsl : (insertionSort (fun q r : Sample =>
      query_bits_range q (oracle.k - i * b) oracle.k
        ≤ query_bits_range r (oracle.k - i * b) oracle.k) oracle.samples).length
      = oracle.samples.length := (insertionSort_perm _ _).length_eq
  constructor
  · have h1 := hfacts.1
    rw [hsl] at h1
    exact h1
  · exact hfacts.2

end LpnSpec

namespace LpnSpec

theorem bkwIterations_zero (oracle : LpnOracle) (b : Nat) :
    bkwIterations oracle b 0 = oracle := rfl

theorem bkwIterations_succ (oracle : LpnOracle) (b n : Nat) :
    bkwIterations oracle b (n + 1) = bkwStep b (bkwIterations oracle b n) (n + 1) := by
  unfold bkwIterations
  rw [List.range'_concat 1 n, List.foldl_append]
  simp only [List.foldl_cons, List.foldl_nil, Nat.one_mul]
  rw [Nat.add_comm 1 n]

theorem bkwIterations_length_inplace (oracle : LpnOracle) (b : Nat) (hb : b < 22) :
    ∀ i, oracle.samples.length ≤ (bkwIterations oracle b i).samples.length + i * 2 ^ b := by
  intro i
  induction i with
  | zero => simp [bkwIterations_zero]
  | succ n ih =>
    rw [bkwIterations_succ]
    have hstep : (bkwIterations oracle b n).samples.length ≤
        (bkwStep b (bkwIterations oracle b n) (n + 1)).samples.length + 2 ^ b := by
      unfold bkwStep
      rw [if_pos hb]
      exact bkw_reduce_inplace_length (bkwIterations oracle b n) (n + 1) b
    have hmul : (n + 1) * 2 ^ b = n * 2 ^ b + 2 ^ b := by ring
    omega

theorem bkwIterations_sorted_aux (oracle : LpnOracle) (b : Nat) (hb : ¬ b < 22) :
    ∀ i, i * b ≤ oracle.k →
      (oracle.samples.length ≤ (bkwIterations oracle b i).samples.length + i * 2 ^ b ∧
       ∀ q ∈ (bkwIterations oracle b i).samples, ∀ j,
         oracle.k - i * b ≤ j → j < oracle.k → q.a.testBit j = false) := by
  intro i
  induction i with
  | zero =>
    intro _
    refine ⟨by simp [bkwIterations_zero], ?_⟩
    intro q _ j hj1 hj2
    simp at hj1
    omega
  | succ n ih =>
    intro h
    have hnb : n * b ≤ oracle.k := by
      have : n * b ≤ (n + 1) * b := by
        rw [Nat.succ_mul]
        omega
      omega
    obtain ⟨ihlen, ihinv⟩ := ih hnb
    have hk : (bkwIterations oracle b n).k = oracle.k := bkwIterations_k oracle b n
    have hinv' : ∀ q ∈ (bkwIterations oracle b n).samples, ∀ j,
        (bkwIterations oracle b n).k - (n + 1 - 1) * b ≤ j →
        j < (bkwIterations oracle b n).k → q.a.testBit j = false := by
      intro q hq j hj1 hj2
      rw [hk] at hj1 hj2
      simp only [Nat.add_sub_cancel] at hj1
      exact ihinv q hq j hj1 hj2
    have hstep := bkw_reduce_sorted_step (bkwIterations oracle b n) (n + 1) b
      (by omega) (by rw [hk]; exact h) hinv'
    have hred : bkwIterations oracle b (n + 1)
        = bkw_reduce_sorted (bkwIterations oracle b n) (n + 1) b := by
      rw [bkwIterations_succ]
      unfold bkwStep
      rw [if_neg hb]
    rw [hred]
    obtain ⟨hslen, hsinv⟩ := hstep
    constructor
    · have hmul : (n + 1) * 2 ^ b = n * 2 ^ b + 2 ^ b := by ring
      omega
    · intro q hq j hj1 hj2
      rw [← hk] at hj1 hj2
      exact hsinv q hq j hj1 hj2

end LpnSpec

namespace LpnSpec

/-- C10.  Counterexample to the claimed direction of the sample-count bound:
on the one-sample pool with `k = 4`, `b = 2`, after `i = 1` iteration the
indexing variant removes nothing, so `1` sample remains, while the claim
demands at most `1 − 1·2² = −3`. -/
theorem bkw_sample_count_claim_false_c10 :
    ¬ (((bkwIterations ⟨4, 0, [⟨4, false⟩]⟩ 2 1).samples.length : ℤ)
      ≤ (1 : ℤ) - 1 * 2 ^ 2) := by
  intro hcon
  have hlen : (bkwIterations ⟨4, 0, [⟨4, false⟩]⟩ 2 1).samples.length = 1 := by decide
  rw [hlen] at hcon
  norm_num at hcon

/-- C10 (amended).  Each BKW iteration removes at most `2^b` samples (the
recorded pivots of the indexing variant, or one pivot per run of the sorting
variant, whose runs number at most `2^b` because along a `bkw_reduce`
execution every sample's key bits above the already-cleared windows fit in
`b` bits): after `i` iterations at least `n₀ − i·2^b` samples remain. -/
theorem bkw_sample_count_lower_c10 (oracle : LpnOracle) (b i : Nat)
    (h : i * b ≤ oracle.k) :
    oracle.samples.length ≤ (bkwIterations oracle b i).samples.length + i * 2 ^ b := by
  by_cases hb : b < 22
  · exact bkwIterations_length_inplace oracle b hb i
  · exact (bkwIterations_sorted_aux oracle b hb i h).1

/-- Witness for the amended C10 bound at the one-sample pool with `k = 4`,
`b = 2`, `i = 1`. -/
theorem bkw_sample_count_lower_c10_witness :
    (LpnOracle.mk 4 0 [⟨4, false⟩]).samples.length
      ≤ (bkwIterations ⟨4, 0, [⟨4, false⟩]⟩ 2 1).samples.length + 1 * 2 ^ 2 :=
  bkw_sample_count_lower_c10 ⟨4, 0, [⟨4, false⟩]⟩ 2 1 (by decide)

end LpnSpec
